import Mathlib

/-! Signaling relay: connection registry and message router.

A shallow embedding of `src/main.go`.  The process-wide map `peers` is passed
explicitly, every effect on a connection, on the mutex `peersMu` or on the log
is recorded as an `Event` of a trace, and everything the environment decides
(the random bytes, the frames read, the result of `json.Unmarshal`, whether a
send returns an error) is an argument of the function that consumes it.
-/

namespace GoVoip

/-! ## Data model -/

/-- Dynamic value held in a Go `interface{}`: what `encoding/json` stores in a
`map[string]interface{}` (nil, bool, float64, string, slice, nested map) and
the `int` that `len(peers)` puts into a message.  A `float64` is kept as its
bit pattern; the relay never looks at it. -/
inductive Value where
  | null
  | bool (b : Bool)
  | float64 (bits : Nat)
  | int (n : Int)
  | string (s : String)
  | slice (xs : List Value)
  | object (kvs : List (String × Value))

/-- Allocated Go map from string keys to dynamic values. -/
abbrev MsgMap := AList (fun _ : String => Value)

/-- Go type `Message` (`map[string]interface{}`); `none` is the nil map that
`var msg Message` declares and that decoding the JSON literal `null` leaves
untouched. -/
abbrev Message := Option MsgMap

/-- Pointer identity of a `*websocket.Conn`. -/
abbrev Conn := Nat

/-- Go struct `Client`. -/
structure Client where
  id : String
  conn : Conn
  deriving DecidableEq, Repr

/-- Global map `peers` (`map[string]*Client`); only non-nil pointers are ever
stored, so a nil result of indexing is exactly an absent key. -/
abbrev Peers := AList (fun _ : String => Client)

/-- One byte. -/
abbrev Byte := Fin 256

/-- Buffer `b := make([]byte, 16)` after a successful `rand.Read(b)`. -/
abbrev Buf16 := { b : List Byte // b.length = 16 }

/-- Observable effects, in program order. -/
inductive Event where
  | lock
  | unlock
  | writeJSON (conn : Conn) (v : Message)
  | close (conn : Conn)
  | log (line : String)

/-- Calls of `WriteJSON` recorded in a trace, in order: connection and value. -/
def writes : List Event → List (Conn × Message)
  | [] => []
  | Event.writeJSON c v :: es => (c, v) :: writes es
  | _ :: es => writes es

/-- Connections closed in a trace, in order. -/
def closes : List Event → List Conn
  | [] => []
  | Event.close c :: es => c :: closes es
  | _ :: es => closes es

/-- Scan of a trace for a `WriteJSON` issued while `peersMu` is held; the flag
is whether the mutex is held before the first event. -/
def sendsWhileLocked : Bool → List Event → Bool
  | _, [] => false
  | _, Event.lock :: es => sendsWhileLocked true es
  | _, Event.unlock :: es => sendsWhileLocked false es
  | held, Event.writeJSON _ _ :: es => held || sendsWhileLocked held es
  | held, _ :: es => sendsWhileLocked held es

/-! ## Message maps -/

/-- Index expression `msg[k]`: reading a nil map or an absent key gives the
zero value, here `none`. -/
def Message.index (msg : Message) (k : String) : Option Value :=
  match msg with
  | none => none
  | some m => m.lookup k

/-- Comma-ok type assertion `s, _ := v.(string)`: the string held, or the zero
value `""` when the dynamic type is not string. -/
def asString : Option Value → String
  | some (Value.string s) => s
  | _ => ""

/-- Assignment `msg[k] = v`; on a nil map the Go runtime panics. -/
def Message.assign (msg : Message) (k : String) (v : Value) : Except String Message :=
  match msg with
  | none => Except.error "assignment to entry in nil map"
  | some m => Except.ok (some (m.insert k v))

/-- Composite literal `Message{"type": "myId", "id": id}`. -/
def myIdMsg (id : String) : Message :=
  some (((∅ : MsgMap).insert "type" (Value.string "myId")).insert "id" (Value.string id))

/-- Composite literal `Message{"type": "peerCount", "count": n}`. -/
def peerCountMsg (n : Nat) : Message :=
  some (((∅ : MsgMap).insert "type" (Value.string "peerCount")).insert "count" (Value.int n))

/-! ## randID -/

/-- Constant `hextable` of `encoding/hex`. -/
def hextable : List Char := "0123456789abcdef".toList

/-- Character `hextable[n]`. -/
def hexdigit (n : Nat) : Char := hextable.getD n '0'

/-- Function `hex.EncodeToString`: two digits per byte, `hextable[v>>4]` then
`hextable[v&0x0f]`. -/
def encodeToString (src : List Byte) : String :=
  String.mk (src.flatMap fun v => [hexdigit (v.val / 16), hexdigit (v.val % 16)])

/-- Function `randID`: the argument is what `rand.Read(b)` did to the 16-byte
buffer; an error makes the function panic, written `Except.error`. -/
def randID (rd : Except String Buf16) : Except String String :=
  match rd with
  | Except.error err => Except.error err
  | Except.ok b => Except.ok (encodeToString b.val)

/-! ## Registry operations -/

/-- Number of entries, `len(peers)`. -/
def len (peers : Peers) : Nat := peers.entries.length

/-- Registration, lines 57-59: `peers[id] = client` between `Lock` and `Unlock`. -/
def register (peers : Peers) (client : Client) : Peers × List Event :=
  (peers.insert client.id client, [Event.lock, Event.unlock])

/-- Lookup, lines 93-95: `target := peers[to]` between `Lock` and `Unlock`;
`none` is the nil pointer. -/
def lookup (peers : Peers) (toId : String) : Option Client × List Event :=
  (peers.lookup toId, [Event.lock, Event.unlock])

/-- Removal, lines 108-110: `delete(peers, id)` between `Lock` and `Unlock`. -/
def unregister (peers : Peers) (id : String) : Peers × List Event :=
  (peers.erase id, [Event.lock, Event.unlock])

/-- Function `broadcastPeerCount`: the mutex is taken, the deferred `Unlock`
runs when the function returns, and in between the one message built from
`len(peers)` is written to every client of the map, which is not modified.  The results of the writes
are discarded by the code.  The map is ranged over in the order of its
entries. -/
def broadcastPeerCount (peers : Peers) : Peers × List Event :=
  let msg := peerCountMsg (len peers)
  (peers,
    [Event.lock] ++ peers.entries.map (fun e => Event.writeJSON e.2.conn msg) ++ [Event.unlock])

/-! ## wsHandler -/

/-- Where control is: back at `ReadMessage` for the next frame, out of the
loop and about to run the teardown, returned from the handler, or unwinding a
panic. -/
inductive Next where
  | reading
  | teardown
  | returned
  | panicked (reason : String)
  deriving DecidableEq, Repr

/-- Result of a piece of the handler: the registry afterwards, the events
emitted, and where control goes. -/
structure Outcome where
  peers : Peers
  trace : List Event
  next : Next

/-- Case list `"offer", "answer", "ice-candidate", "hangup"` of the switch. -/
def isRelayType (typ : String) : Bool :=
  typ == "offer" || typ == "answer" || typ == "ice-candidate" || typ == "hangup"

/-- Log line written when a send returns an error, nothing otherwise. -/
def logIfErr (what : String) : Option String → List Event
  | none => []
  | some err => [Event.log (what ++ " " ++ err)]

/-- One pass through the body of the read loop, lines 71-105.  `rd` is the
result of `conn.ReadMessage()`, `unmarshal` is `json.Unmarshal` into the fresh
nil map `msg`, `fwdErr` is the error the forwarding `WriteJSON` returns, if it
is reached. -/
def wsIteration (unmarshal : List Byte → Except String Message) (peers : Peers)
    (id : String) (rd : Except String (List Byte)) (fwdErr : Option String) : Outcome :=
  match rd with
  | Except.error _ => ⟨peers, [], Next.teardown⟩
  | Except.ok data =>
    match unmarshal data with
    | Except.error err => ⟨peers, [Event.log ("invalid json: " ++ err)], Next.reading⟩
    | Except.ok msg =>
      let typ := asString (msg.index "type")
      let toId := asString (msg.index "to")
      if typ = "" then ⟨peers, [], Next.reading⟩
      else if isRelayType typ then
        if toId = "" then ⟨peers, [], Next.reading⟩
        else
          match lookup peers toId with
          | (none, tr) => ⟨peers, tr, Next.reading⟩
          | (some target, tr) =>
            match msg.assign "from" (Value.string id) with
            | Except.error reason => ⟨peers, tr, Next.panicked reason⟩
            | Except.ok msg1 =>
              ⟨peers, tr ++ [Event.writeJSON target.conn msg1] ++ logIfErr "forward error:" fwdErr,
                Next.reading⟩
      else ⟨peers, [], Next.reading⟩

/-- Connect step, lines 53-68: identifier, registration, `myId` to the new
client, broadcast, log line.  `Except.error` is the panic of `randID`. -/
def wsConnect (peers : Peers) (conn : Conn) (rd : Except String Buf16)
    (myIdErr : Option String) : Except String (String × Peers × List Event) :=
  match randID rd with
  | Except.error err => Except.error err
  | Except.ok id =>
    let client : Client := ⟨id, conn⟩
    let r := register peers client
    let b := broadcastPeerCount r.1
    Except.ok (id, b.1,
      r.2 ++ [Event.writeJSON conn (myIdMsg id)] ++ logIfErr "send myId error:" myIdErr
        ++ b.2 ++ [Event.log ("New user connected: " ++ id)])

/-- Teardown step, lines 107-113: removal, `Close`, broadcast, log line. -/
def wsTeardown (peers : Peers) (id : String) (conn : Conn) : Peers × List Event :=
  let r := unregister peers id
  let b := broadcastPeerCount r.1
  (b.1, r.2 ++ [Event.close conn] ++ b.2 ++ [Event.log ("User disconnected: " ++ id)])

/-- Read loop, lines 71-105, run on the frames the connection delivers; each
comes with the error of the forwarding send it may cause.  When the frames run
out the loop is still in `ReadMessage`, state `Next.reading`. -/
def readLoop (unmarshal : List Byte → Except String Message) (peers : Peers) (id : String) :
    List (Except String (List Byte) × Option String) → List Event × Next
  | [] => ([], Next.reading)
  | (rd, fwdErr) :: rest =>
    let o := wsIteration unmarshal peers id rd fwdErr
    match o.next with
    | Next.reading =>
      let r := readLoop unmarshal o.peers id rest
      (o.trace ++ r.1, r.2)
    | n => (o.trace, n)

/-- Function `wsHandler` on one connection, with no other handler running in
between: upgrade, connect step, read loop and, once the loop has exited,
teardown. -/
def wsHandler (unmarshal : List Byte → Except String Message) (peers : Peers)
    (upgrade : Except String Conn) (rd : Except String Buf16) (myIdErr : Option String)
    (frames : List (Except String (List Byte) × Option String)) : Outcome :=
  match upgrade with
  | Except.error err => ⟨peers, [Event.log ("upgrade error: " ++ err)], Next.returned⟩
  | Except.ok conn =>
    match wsConnect peers conn rd myIdErr with
    | Except.error reason => ⟨peers, [], Next.panicked reason⟩
    | Except.ok (id, peers1, t1) =>
      match readLoop unmarshal peers1 id frames with
      | (t2, Next.teardown) =>
        let r := wsTeardown peers1 id conn
        ⟨r.1, t1 ++ t2 ++ r.2, Next.returned⟩
      | (t2, n) => ⟨peers1, t1 ++ t2, n⟩

/-- Registrations one after the other, with no removal in between: the final
registry and the identifiers issued, in order.  A handler whose `randID`
panics registers nothing. -/
def connectAll (peers : Peers) :
    List (Conn × Except String Buf16 × Option String) → Peers × List String
  | [] => (peers, [])
  | (conn, rd, myIdErr) :: rest =>
    match wsConnect peers conn rd myIdErr with
    | Except.error _ => connectAll peers rest
    | Except.ok (id, peers1, _) =>
      let r := connectAll peers1 rest
      (r.1, id :: r.2)

/-- Arrival of a connection whose `rand.Read` succeeds with the bytes `b`. -/
def arrival (a : Conn × Buf16) : Conn × Except String Buf16 × Option String :=
  (a.1, Except.ok a.2, none)

/-! ## Worked inputs -/

/-- Decoded form of the frame
`{"type":"offer","to":"bob","from":"eve","sdp":"v=0"}`. -/
def sampleOffer : MsgMap :=
  ((((∅ : MsgMap).insert "sdp" (Value.string "v=0")).insert "from" (Value.string "eve")).insert
    "to" (Value.string "bob")).insert "type" (Value.string "offer")

/-- Decoded form of the frame `{"type":"chat","to":"bob"}`. -/
def sampleChat : MsgMap :=
  ((∅ : MsgMap).insert "to" (Value.string "bob")).insert "type" (Value.string "chat")

/-- Decoder of the worked inputs; it stands for `json.Unmarshal` on four kinds
of frame told apart by their first byte: an opening brace for the offer above,
`c` for the chat message above, `n` for the literal `null`, anything else for
a frame that is rejected. -/
def sampleUnmarshal : List Byte → Except String Message
  | 123 :: _ => Except.ok (some sampleOffer)
  | 99 :: _ => Except.ok (some sampleChat)
  | 110 :: _ => Except.ok none
  | _ => Except.error "invalid character"

/-- Registry holding the one client `bob`, on connection 7. -/
def onlyBob : Peers := (∅ : Peers).insert "bob" ⟨"bob", 7⟩

/-- Registry holding `alice` on connection 3 and `bob` on connection 7. -/
def aliceAndBob : Peers := onlyBob.insert "alice" ⟨"alice", 3⟩

/-- Sixteen zero bytes. -/
def zeroBuf : Buf16 := ⟨List.replicate 16 0, rfl⟩

/-- Sixteen bytes of value one. -/
def onesBuf : Buf16 := ⟨List.replicate 16 1, rfl⟩

/-! ## Traces -/

theorem writes_append (a b : List Event) : writes (a ++ b) = writes a ++ writes b := by
  induction a with
  | nil => rfl
  | cons e es ih => cases e <;> simp [writes, ih]

theorem closes_append (a b : List Event) : closes (a ++ b) = closes a ++ closes b := by
  induction a with
  | nil => rfl
  | cons e es ih => cases e <;> simp [closes, ih]

theorem writes_logIfErr (what : String) (err : Option String) :
    writes (logIfErr what err) = [] := by
  cases err <;> rfl

theorem closes_logIfErr (what : String) (err : Option String) :
    closes (logIfErr what err) = [] := by
  cases err <;> rfl

theorem writes_map_writeJSON (l : List (Sigma fun _ : String => Client)) (msg : Message) :
    writes (l.map fun e => Event.writeJSON e.2.conn msg) = l.map fun e => (e.2.conn, msg) := by
  induction l with
  | nil => rfl
  | cons e es ih => simp [writes, ih]

theorem closes_map_writeJSON (l : List (Sigma fun _ : String => Client)) (msg : Message) :
    closes (l.map fun e => Event.writeJSON e.2.conn msg) = [] := by
  induction l with
  | nil => rfl
  | cons e es ih => simp [closes, ih]

theorem writes_broadcastPeerCount (peers : Peers) :
    writes (broadcastPeerCount peers).2
      = peers.entries.map fun e => (e.2.conn, peerCountMsg (len peers)) := by
  simp [broadcastPeerCount, writes_append, writes_map_writeJSON, writes]

/-! ## One frame -/

theorem isRelayType_iff (typ : String) :
    isRelayType typ = true
      ↔ typ = "offer" ∨ typ = "answer" ∨ typ = "ice-candidate" ∨ typ = "hangup" := by
  simp [isRelayType, or_assoc]

theorem relay_ne_empty (typ : String) (h : isRelayType typ = true) : typ ≠ "" := by
  rintro rfl
  revert h
  decide

theorem asString_ne_empty (v : Option Value) (h : asString v ≠ "") :
    ∃ s, v = some (Value.string s) ∧ s ≠ "" := by
  match v, h with
  | some (Value.string s), h => exact ⟨s, rfl, h⟩
  | none, h => exact absurd rfl h
  | some Value.null, h => exact absurd rfl h
  | some (Value.bool _), h => exact absurd rfl h
  | some (Value.float64 _), h => exact absurd rfl h
  | some (Value.int _), h => exact absurd rfl h
  | some (Value.slice _), h => exact absurd rfl h
  | some (Value.object _), h => exact absurd rfl h

theorem index_nil (k : String) : asString (Message.index none k) = "" := rfl

/-- Where control goes after one pass of the loop body depends on the read
alone. -/
theorem wsIteration_next (unmarshal : List Byte → Except String Message) (peers : Peers)
    (id : String) (rd : Except String (List Byte)) (fwdErr : Option String) :
    (wsIteration unmarshal peers id rd fwdErr).next
      = match rd with
        | Except.error _ => Next.teardown
        | Except.ok _ => Next.reading := by
  cases rd with
  | error e => rfl
  | ok data =>
    simp only [wsIteration]
    cases hu : unmarshal data with
    | error e => rfl
    | ok msg =>
      simp only []
      split
      · rfl
      · rename_i htyp
        split
        · split
          · rfl
          · cases hl : (peers.lookup (asString (Message.index msg "to"))) with
            | none => simp [lookup, hl]
            | some target =>
              cases msg with
              | none => exact absurd (index_nil "type") htyp
              | some m => simp [lookup, hl, Message.assign]
        · rfl

/-- The loop body never modifies the registry. -/
theorem wsIteration_peers (unmarshal : List Byte → Except String Message) (peers : Peers)
    (id : String) (rd : Except String (List Byte)) (fwdErr : Option String) :
    (wsIteration unmarshal peers id rd fwdErr).peers = peers := by
  cases rd with
  | error e => rfl
  | ok data =>
    simp only [wsIteration]
    cases hu : unmarshal data with
    | error e => rfl
    | ok msg =>
      simp only []
      split
      · rfl
      · split
        · split
          · rfl
          · cases hl : (peers.lookup (asString (Message.index msg "to"))) with
            | none => simp [lookup, hl]
            | some target =>
              cases msg with
              | none => simp [lookup, hl, Message.assign]
              | some m => simp [lookup, hl, Message.assign]
        · rfl

/-- C1: a frame that decodes to the object `m`, whose `type` is one of the four
relay types and whose `to` is a non-empty string registered in `peers`, causes
exactly one `WriteJSON`, on the connection of the client registered under `to`;
the value written is `m` with `from` set to the sender's identifier: `from`
maps to `id` whatever `m` held there, every other key maps to what it maps to
in `m`. -/
theorem forward_to_registered_peer (unmarshal : List Byte → Except String Message)
    (peers : Peers) (id : String) (data : List Byte) (fwdErr : Option String)
    (m : MsgMap) (typ toId : String) (target : Client)
    (hparse : unmarshal data = Except.ok (some m))
    (htype : m.lookup "type" = some (Value.string typ))
    (hrelay : typ = "offer" ∨ typ = "answer" ∨ typ = "ice-candidate" ∨ typ = "hangup")
    (hto : m.lookup "to" = some (Value.string toId)) (hne : toId ≠ "")
    (hreg : peers.lookup toId = some target) :
    ∃ sent : MsgMap,
      writes (wsIteration unmarshal peers id (Except.ok data) fwdErr).trace
          = [(target.conn, some sent)]
        ∧ sent = m.insert "from" (Value.string id)
        ∧ sent.lookup "from" = some (Value.string id)
        ∧ ∀ k, k ≠ "from" → sent.lookup k = m.lookup k := by
  have hr : isRelayType typ = true := (isRelayType_iff typ).2 hrelay
  have hne2 : typ ≠ "" := relay_ne_empty typ hr
  have h1 : asString (Message.index (some m) "type") = typ := by
    simp [Message.index, htype, asString]
  have h2 : asString (Message.index (some m) "to") = toId := by
    simp [Message.index, hto, asString]
  refine ⟨m.insert "from" (Value.string id), ?_, rfl, AList.lookup_insert _, ?_⟩
  · simp only [wsIteration, hparse, h1, h2, hr, hne, hne2, lookup, Message.assign,
      if_true, if_false]
    rw [h2, hreg]
    simp [writes_append, writes, writes_logIfErr]
  · intro k hk
    exact AList.lookup_insert_ne hk

theorem forward_to_registered_peer_witness :
    ∃ sent : MsgMap,
      writes (wsIteration sampleUnmarshal onlyBob "alice" (Except.ok [123]) none).trace
          = [(7, some sent)]
        ∧ sent = sampleOffer.insert "from" (Value.string "alice")
        ∧ sent.lookup "from" = some (Value.string "alice")
        ∧ ∀ k, k ≠ "from" → sent.lookup k = sampleOffer.lookup k :=
  forward_to_registered_peer sampleUnmarshal onlyBob "alice" [123] none sampleOffer "offer" "bob"
    ⟨"bob", 7⟩ rfl rfl (Or.inl rfl) rfl (by decide) rfl

/-- Frames the loop body discards without touching the mutex: the decoded
value has no relay type, or its `to` is not a non-empty string. -/
theorem wsIteration_discard (unmarshal : List Byte → Except String Message) (peers : Peers)
    (id : String) (data : List Byte) (fwdErr : Option String) (msg : Message)
    (hparse : unmarshal data = Except.ok msg)
    (h : isRelayType (asString (msg.index "type")) = false ∨ asString (msg.index "to") = "") :
    wsIteration unmarshal peers id (Except.ok data) fwdErr = ⟨peers, [], Next.reading⟩ := by
  simp only [wsIteration, hparse]
  split
  · rfl
  · split
    · rename_i hr
      split
      · rfl
      · rename_i hto
        rcases h with h | h
        · rw [h] at hr
          exact absurd hr (by decide)
        · exact absurd h hto
    · rfl

/-- C2: a frame that decodes to the object `m`, whose `type` is one of the four
relay types and whose `to` is a non-empty string that is not registered,
causes no `WriteJSON` on any connection, leaves the registry as it was, and the
loop goes on reading. -/
theorem forward_to_unknown_target (unmarshal : List Byte → Except String Message)
    (peers : Peers) (id : String) (data : List Byte) (fwdErr : Option String)
    (m : MsgMap) (typ toId : String)
    (hparse : unmarshal data = Except.ok (some m))
    (htype : m.lookup "type" = some (Value.string typ))
    (hrelay : typ = "offer" ∨ typ = "answer" ∨ typ = "ice-candidate" ∨ typ = "hangup")
    (hto : m.lookup "to" = some (Value.string toId)) (hne : toId ≠ "")
    (hreg : toId ∉ peers) :
    writes (wsIteration unmarshal peers id (Except.ok data) fwdErr).trace = []
      ∧ (wsIteration unmarshal peers id (Except.ok data) fwdErr).peers = peers
      ∧ (wsIteration unmarshal peers id (Except.ok data) fwdErr).next = Next.reading := by
  have hr : isRelayType typ = true := (isRelayType_iff typ).2 hrelay
  have hne2 : typ ≠ "" := relay_ne_empty typ hr
  have h1 : asString (Message.index (some m) "type") = typ := by
    simp [Message.index, htype, asString]
  have h2 : asString (Message.index (some m) "to") = toId := by
    simp [Message.index, hto, asString]
  have hl : peers.lookup toId = none := AList.lookup_eq_none.2 hreg
  refine ⟨?_, wsIteration_peers _ _ _ _ _, ?_⟩
  · simp only [wsIteration, hparse, h1, hr, hne2, lookup, if_true, if_false]
    rw [h2, hl]
    simp [hne, writes]
  · rw [wsIteration_next]

theorem forward_to_unknown_target_witness :
    writes (wsIteration sampleUnmarshal (∅ : Peers) "alice" (Except.ok [123]) none).trace = []
      ∧ (wsIteration sampleUnmarshal (∅ : Peers) "alice" (Except.ok [123]) none).peers = ∅
      ∧ (wsIteration sampleUnmarshal (∅ : Peers) "alice" (Except.ok [123]) none).next
          = Next.reading :=
  forward_to_unknown_target sampleUnmarshal ∅ "alice" [123] none sampleOffer "offer" "bob"
    rfl rfl (Or.inl rfl) rfl (by decide) (AList.not_mem_empty "bob")

/-- C3: a frame that decodes to the object `m` is discarded when `type` is
absent, not a string, empty or none of the four relay types, and also when
`to` is absent, not a string or empty: no `WriteJSON` on any connection, no
`Close`, and the loop goes on reading. -/
theorem invalid_routing_fields_discarded (unmarshal : List Byte → Except String Message)
    (peers : Peers) (id : String) (data : List Byte) (fwdErr : Option String) (m : MsgMap)
    (hparse : unmarshal data = Except.ok (some m))
    (h : (∀ t, m.lookup "type" = some (Value.string t) →
            t ≠ "offer" ∧ t ≠ "answer" ∧ t ≠ "ice-candidate" ∧ t ≠ "hangup")
          ∨ (∀ s, m.lookup "to" = some (Value.string s) → s = "")) :
    writes (wsIteration unmarshal peers id (Except.ok data) fwdErr).trace = []
      ∧ closes (wsIteration unmarshal peers id (Except.ok data) fwdErr).trace = []
      ∧ (wsIteration unmarshal peers id (Except.ok data) fwdErr).next = Next.reading := by
  have hd : isRelayType (asString (Message.index (some m) "type")) = false
      ∨ asString (Message.index (some m) "to") = "" := by
    rcases h with h | h
    · left
      by_contra hc
      have hr : isRelayType (asString (Message.index (some m) "type")) = true := by
        simpa using hc
      obtain ⟨s, hs, -⟩ := asString_ne_empty _ (relay_ne_empty _ hr)
      have hs2 : asString (Message.index (some m) "type") = s := by rw [hs]; rfl
      rw [hs2] at hr
      obtain ⟨a, b, c, d⟩ := h s hs
      rcases (isRelayType_iff s).1 hr with e | e | e | e
      · exact a e
      · exact b e
      · exact c e
      · exact d e
    · right
      by_contra hc
      obtain ⟨s, hs, hs2⟩ := asString_ne_empty _ hc
      exact hs2 (h s hs)
  rw [wsIteration_discard unmarshal peers id data fwdErr (some m) hparse hd]
  exact ⟨rfl, rfl, rfl⟩

theorem invalid_routing_fields_discarded_witness :
    writes (wsIteration sampleUnmarshal onlyBob "alice" (Except.ok [99]) none).trace = []
      ∧ closes (wsIteration sampleUnmarshal onlyBob "alice" (Except.ok [99]) none).trace = []
      ∧ (wsIteration sampleUnmarshal onlyBob "alice" (Except.ok [99]) none).next
          = Next.reading :=
  invalid_routing_fields_discarded sampleUnmarshal onlyBob "alice" [99] none sampleChat rfl
    (Or.inl (fun t ht => by
      have e : t = "chat" := by
        have h2 : sampleChat.lookup "type" = some (Value.string "chat") := rfl
        rw [h2] at ht
        injection ht with ht
        injection ht with ht
        exact ht.symm
      subst e
      decide))

/-! ## The read loop -/

theorem readLoop_next (unmarshal : List Byte → Except String Message) (peers : Peers)
    (id : String) (frames : List (Except String (List Byte) × Option String)) :
    ((readLoop unmarshal peers id frames).2 = Next.teardown
        ∧ ∃ f ∈ frames, ∃ e, f.1 = Except.error e)
      ∨ ((readLoop unmarshal peers id frames).2 = Next.reading
        ∧ ¬ ∃ f ∈ frames, ∃ e, f.1 = Except.error e) := by
  induction frames generalizing peers with
  | nil => right; simp [readLoop]
  | cons f rest ih =>
    obtain ⟨rd, fwdErr⟩ := f
    cases rd with
    | error e =>
      have hn := wsIteration_next unmarshal peers id (Except.error e) fwdErr
      left
      simp only [readLoop]
      rw [hn]
      exact ⟨rfl, _, List.mem_cons_self _ _, e, rfl⟩
    | ok data =>
      have hn := wsIteration_next unmarshal peers id (Except.ok data) fwdErr
      simp only [readLoop]
      rw [hn]
      simp only []
      rcases ih (wsIteration unmarshal peers id (Except.ok data) fwdErr).peers with h | h
      · left
        obtain ⟨h1, f, hf, e, he⟩ := h
        exact ⟨h1, f, List.mem_cons_of_mem _ hf, e, he⟩
      · right
        refine ⟨h.1, ?_⟩
        rintro ⟨f, hf, e, he⟩
        rcases List.mem_cons.1 hf with rfl | hf
        · cases he
        · exact h.2 ⟨f, hf, e, he⟩

/-- C4: one pass of the loop body ends in teardown exactly when the read
returned an error and at the next read exactly when a frame was read, whatever
the frame holds, whatever the decoder makes of it and whether or not the
forwarding send fails; so the loop run on a sequence of reads reaches teardown
exactly when one of the reads is an error, and is otherwise still reading. -/
theorem loop_exits_only_on_read_error (unmarshal : List Byte → Except String Message)
    (peers : Peers) (id : String) :
    (∀ (rd : Except String (List Byte)) (fwdErr : Option String),
        ((wsIteration unmarshal peers id rd fwdErr).next = Next.teardown
            ↔ ∃ e, rd = Except.error e)
          ∧ ((wsIteration unmarshal peers id rd fwdErr).next = Next.reading
            ↔ ∃ data, rd = Except.ok data))
      ∧ ∀ frames : List (Except String (List Byte) × Option String),
          ((readLoop unmarshal peers id frames).2 = Next.teardown
              ↔ ∃ f ∈ frames, ∃ e, f.1 = Except.error e)
            ∧ ((readLoop unmarshal peers id frames).2 = Next.reading
              ↔ ¬ ∃ f ∈ frames, ∃ e, f.1 = Except.error e) := by
  refine ⟨fun rd fwdErr => ?_, fun frames => ?_⟩
  · rw [wsIteration_next]
    cases rd <;> simp
  · rcases readLoop_next unmarshal peers id frames with ⟨h1, h2⟩ | ⟨h1, h2⟩
    · rw [h1]
      exact ⟨⟨fun _ => h2, fun _ => rfl⟩, ⟨fun c => (by cases c), fun c => absurd h2 c⟩⟩
    · rw [h1]
      exact ⟨⟨fun c => (by cases c), fun c => absurd c h2⟩, ⟨fun _ => h2, fun _ => rfl⟩⟩

/-- C10: the assignment `msg["from"] = id` never runs on a nil map.  No pass of
the loop body ends in a panic, whatever the decoder returns; a frame decoded
to the nil map (the literal `null`) is discarded with no event at all; and a
frame causes a `WriteJSON` only if it was decoded to a non-nil map holding a
non-empty string under `type`. -/
theorem no_write_to_nil_map (unmarshal : List Byte → Except String Message)
    (peers : Peers) (id : String) (fwdErr : Option String) :
    (∀ (rd : Except String (List Byte)) (reason : String),
        (wsIteration unmarshal peers id rd fwdErr).next ≠ Next.panicked reason)
      ∧ (∀ data, unmarshal data = Except.ok none →
          wsIteration unmarshal peers id (Except.ok data) fwdErr = ⟨peers, [], Next.reading⟩)
      ∧ ∀ data msg, unmarshal data = Except.ok msg →
          writes (wsIteration unmarshal peers id (Except.ok data) fwdErr).trace ≠ [] →
          ∃ m typ, msg = some m ∧ m.lookup "type" = some (Value.string typ) ∧ typ ≠ "" := by
  refine ⟨fun rd reason => ?_, fun data hu => ?_, fun data msg hu hw => ?_⟩
  · rw [wsIteration_next]
    cases rd <;> simp
  · exact wsIteration_discard unmarshal peers id data fwdErr none hu (Or.inl rfl)
  · by_cases ht : asString (msg.index "type") = ""
    · exfalso
      apply hw
      rw [wsIteration_discard unmarshal peers id data fwdErr msg hu
        (Or.inl (by rw [ht]; rfl))]
      rfl
    · obtain ⟨s, hs, hs2⟩ := asString_ne_empty _ ht
      cases msg with
      | none => cases hs
      | some m => exact ⟨m, s, rfl, hs, hs2⟩

theorem no_write_to_nil_map_witness :
    wsIteration sampleUnmarshal onlyBob "alice" (Except.ok [110]) none
      = ⟨onlyBob, [], Next.reading⟩ :=
  (no_write_to_nil_map sampleUnmarshal onlyBob "alice" none).2.1 [110] rfl

/-! ## Registry size and membership -/

theorem len_eq_keys (peers : Peers) : len peers = peers.keys.length := by
  simp [len, AList.keys, List.keys]

theorem len_insert_of_not_mem (peers : Peers) (k : String) (c : Client) (h : k ∉ peers) :
    len (peers.insert k c) = len peers + 1 := by
  rw [len, AList.insert_entries_of_neg h]
  rfl

theorem len_erase_of_mem (peers : Peers) (k : String) (h : k ∈ peers) :
    len (peers.erase k) + 1 = len peers := by
  have hk : k ∈ peers.keys := AList.mem_keys.1 h
  have hpos : 0 < peers.keys.length := List.length_pos_of_mem hk
  rw [len_eq_keys, len_eq_keys, AList.keys_erase, List.length_erase_of_mem hk]
  omega

theorem erase_of_not_mem (peers : Peers) (k : String) (h : k ∉ peers) :
    peers.erase k = peers := by
  apply AList.ext
  exact List.kerase_of_not_mem_keys (fun hk => h (AList.mem_keys.2 hk))

theorem entry_iff_lookup (peers : Peers) (e : Sigma fun _ : String => Client) :
    e ∈ peers.entries ↔ peers.lookup e.1 = some e.2 := by
  obtain ⟨k, c⟩ := e
  exact (AList.mem_lookup_iff).symm

theorem peerCountMsg_fields (n : Nat) :
    ∃ mm : MsgMap, peerCountMsg n = some mm
      ∧ mm.lookup "type" = some (Value.string "peerCount")
      ∧ mm.lookup "count" = some (Value.int n)
      ∧ ∀ k, k ≠ "type" → k ≠ "count" → mm.lookup k = none := by
  refine ⟨_, rfl, ?_, AList.lookup_insert _, ?_⟩
  · rw [AList.lookup_insert_ne (by decide)]
    exact AList.lookup_insert _
  · intro k h1 h2
    rw [AList.lookup_insert_ne h2, AList.lookup_insert_ne h1]
    rfl

theorem recipients_broadcastPeerCount (peers : Peers) (c : Conn) (v : Message) :
    (c, v) ∈ writes (broadcastPeerCount peers).2
      ↔ v = peerCountMsg (len peers) ∧ ∃ k cl, peers.lookup k = some cl ∧ cl.conn = c := by
  rw [writes_broadcastPeerCount]
  constructor
  · intro h
    obtain ⟨e, he, heq⟩ := List.mem_map.1 h
    injection heq with h1 h2
    exact ⟨h2.symm, e.1, e.2, (entry_iff_lookup peers e).1 he, h1⟩
  · rintro ⟨rfl, k, cl, hl, rfl⟩
    exact List.mem_map.2 ⟨⟨k, cl⟩, (entry_iff_lookup peers ⟨k, cl⟩).2 hl, rfl⟩

/-- C5: `broadcastPeerCount` issues one `WriteJSON` per entry of the registry, on
that entry's connection, and none on any connection that is not registered;
every value written is `{type: "peerCount", count: n}` with `n` the number of
entries and no other key; where the registered connections are pairwise
distinct each receives exactly one message; the registry is returned as it
was. -/
theorem broadcast_reaches_every_peer (peers : Peers) :
    writes (broadcastPeerCount peers).2
        = peers.entries.map (fun e => (e.2.conn, peerCountMsg (len peers)))
      ∧ (writes (broadcastPeerCount peers).2).length = len peers
      ∧ (∀ c, (∃ v, (c, v) ∈ writes (broadcastPeerCount peers).2)
          ↔ ∃ k cl, peers.lookup k = some cl ∧ cl.conn = c)
      ∧ (∀ c v, (c, v) ∈ writes (broadcastPeerCount peers).2 →
          ∃ mm : MsgMap, v = some mm
            ∧ mm.lookup "type" = some (Value.string "peerCount")
            ∧ mm.lookup "count" = some (Value.int (len peers))
            ∧ ∀ k, k ≠ "type" → k ≠ "count" → mm.lookup k = none)
      ∧ ((peers.entries.map fun e => e.2.conn).Nodup →
          ∀ k cl, peers.lookup k = some cl →
            ((writes (broadcastPeerCount peers).2).map Prod.fst).count cl.conn = 1)
      ∧ (broadcastPeerCount peers).1 = peers := by
  refine ⟨writes_broadcastPeerCount peers, ?_, ?_, ?_, ?_, rfl⟩
  · rw [writes_broadcastPeerCount]
    simp [len]
  · intro c
    constructor
    · rintro ⟨v, hv⟩
      exact ((recipients_broadcastPeerCount peers c v).1 hv).2
    · intro h
      exact ⟨_, (recipients_broadcastPeerCount peers c _).2 ⟨rfl, h⟩⟩
  · intro c v hv
    obtain ⟨rfl, -⟩ := (recipients_broadcastPeerCount peers c v).1 hv
    exact peerCountMsg_fields (len peers)
  · intro hnd k cl hl
    have hmap : (writes (broadcastPeerCount peers).2).map Prod.fst
        = peers.entries.map fun e => e.2.conn := by
      rw [writes_broadcastPeerCount, List.map_map]
      rfl
    rw [hmap]
    apply List.count_eq_one_of_mem hnd
    exact List.mem_map.2 ⟨⟨k, cl⟩, (entry_iff_lookup peers ⟨k, cl⟩).2 hl, rfl⟩

theorem broadcast_reaches_every_peer_witness :
    writes (broadcastPeerCount aliceAndBob).2 = [(3, peerCountMsg 2), (7, peerCountMsg 2)]
      ∧ ((writes (broadcastPeerCount aliceAndBob).2).map Prod.fst).count 7 = 1 :=
  ⟨(broadcast_reaches_every_peer aliceAndBob).1,
    (broadcast_reaches_every_peer aliceAndBob).2.2.2.2.1 (by decide) "bob" ⟨"bob", 7⟩ rfl⟩

/-! ## Connect and teardown -/

theorem writes_wsConnect (peers : Peers) (conn : Conn) (rd : Except String Buf16)
    (myIdErr : Option String) (id : String) (hid : randID rd = Except.ok id) :
    wsConnect peers conn rd myIdErr
      = Except.ok (id, peers.insert id ⟨id, conn⟩,
          [Event.lock, Event.unlock] ++ [Event.writeJSON conn (myIdMsg id)]
            ++ logIfErr "send myId error:" myIdErr
            ++ (broadcastPeerCount (peers.insert id ⟨id, conn⟩)).2
            ++ [Event.log ("New user connected: " ++ id)]) := by
  simp only [wsConnect, hid, register]
  rfl

/-- C7: when `randID` yields an identifier `id` that is not yet a key of the
registry of `n` entries, the connect step adds the entry `id` for the new
connection and changes no other, which makes `n + 1` entries; its first
`WriteJSON` is `{type: "myId", id: id}` on the new connection, and the
following ones are `{type: "peerCount", count: n + 1}`, one per entry of the
new registry, the new connection included. -/
theorem connect_sends_id_then_count (peers : Peers) (conn : Conn) (rd : Except String Buf16)
    (myIdErr : Option String) (id : String)
    (hid : randID rd = Except.ok id) (hfresh : id ∉ peers) :
    ∃ (peers1 : Peers) (tr : List Event) (mm : MsgMap),
      wsConnect peers conn rd myIdErr = Except.ok (id, peers1, tr)
        ∧ peers1.lookup id = some ⟨id, conn⟩
        ∧ (∀ k, k ≠ id → peers1.lookup k = peers.lookup k)
        ∧ len peers1 = len peers + 1
        ∧ writes tr = (conn, some mm)
            :: peers1.entries.map (fun e => (e.2.conn, peerCountMsg (len peers + 1)))
        ∧ mm.lookup "type" = some (Value.string "myId")
        ∧ mm.lookup "id" = some (Value.string id)
        ∧ (∀ k, k ≠ "type" → k ≠ "id" → mm.lookup k = none)
        ∧ (conn, peerCountMsg (len peers + 1)) ∈ (writes tr).tail
        ∧ (∀ k cl, peers.lookup k = some cl →
            (cl.conn, peerCountMsg (len peers + 1)) ∈ (writes tr).tail) := by
  have hlen := len_insert_of_not_mem peers id ⟨id, conn⟩ hfresh
  have hw : writes ([Event.lock, Event.unlock] ++ [Event.writeJSON conn (myIdMsg id)]
            ++ logIfErr "send myId error:" myIdErr
            ++ (broadcastPeerCount (peers.insert id ⟨id, conn⟩)).2
            ++ [Event.log ("New user connected: " ++ id)])
      = (conn, myIdMsg id) :: (peers.insert id ⟨id, conn⟩).entries.map
          (fun e => (e.2.conn, peerCountMsg (len peers + 1))) := by
    simp only [writes_append, writes_logIfErr, writes_broadcastPeerCount, hlen]
    simp [writes]
  refine ⟨peers.insert id ⟨id, conn⟩, _, _, writes_wsConnect peers conn rd myIdErr id hid,
    AList.lookup_insert _, fun k hk => AList.lookup_insert_ne hk, hlen, hw, ?_,
    AList.lookup_insert _, ?_, ?_, ?_⟩
  · rw [AList.lookup_insert_ne (by decide)]
    exact AList.lookup_insert _
  · intro k h1 h2
    rw [AList.lookup_insert_ne h2, AList.lookup_insert_ne h1]
    rfl
  · rw [hw]
    exact List.mem_map.2 ⟨⟨id, ⟨id, conn⟩⟩,
      (entry_iff_lookup _ ⟨id, ⟨id, conn⟩⟩).2 (AList.lookup_insert _), rfl⟩
  · intro k cl hl
    rw [hw]
    have hk : k ≠ id := by
      rintro rfl
      exact hfresh (AList.lookup_isSome.1 (by rw [hl]; rfl))
    exact List.mem_map.2 ⟨⟨k, cl⟩,
      (entry_iff_lookup _ ⟨k, cl⟩).2 (by
        show AList.lookup k (AList.insert id _ peers) = some cl
        rw [AList.lookup_insert_ne hk]; exact hl), rfl⟩

theorem connect_sends_id_then_count_witness :
    ∃ (peers1 : Peers) (tr : List Event) (mm : MsgMap),
      wsConnect onlyBob 3 (Except.ok zeroBuf) none
          = Except.ok ("00000000000000000000000000000000", peers1, tr)
        ∧ peers1.lookup "00000000000000000000000000000000"
            = some ⟨"00000000000000000000000000000000", 3⟩
        ∧ (∀ k, k ≠ "00000000000000000000000000000000" → peers1.lookup k = onlyBob.lookup k)
        ∧ len peers1 = len onlyBob + 1
        ∧ writes tr = (3, some mm)
            :: peers1.entries.map (fun e => (e.2.conn, peerCountMsg (len onlyBob + 1)))
        ∧ mm.lookup "type" = some (Value.string "myId")
        ∧ mm.lookup "id" = some (Value.string "00000000000000000000000000000000")
        ∧ (∀ k, k ≠ "type" → k ≠ "id" → mm.lookup k = none)
        ∧ (3, peerCountMsg (len onlyBob + 1)) ∈ (writes tr).tail
        ∧ (∀ k cl, onlyBob.lookup k = some cl →
            (cl.conn, peerCountMsg (len onlyBob + 1)) ∈ (writes tr).tail) :=
  connect_sends_id_then_count onlyBob 3 (Except.ok zeroBuf) none
    "00000000000000000000000000000000" rfl (by decide)

theorem wsTeardown_eq (peers : Peers) (id : String) (conn : Conn) :
    wsTeardown peers id conn
      = (peers.erase id,
          [Event.lock, Event.unlock] ++ [Event.close conn]
            ++ (broadcastPeerCount (peers.erase id)).2
            ++ [Event.log ("User disconnected: " ++ id)]) := rfl

theorem writes_wsTeardown (peers : Peers) (id : String) (conn : Conn) :
    writes (wsTeardown peers id conn).2
      = (peers.erase id).entries.map
          (fun e => (e.2.conn, peerCountMsg (len (peers.erase id)))) := by
  rw [wsTeardown_eq]
  simp only [writes_append, writes_broadcastPeerCount]
  simp [writes]

theorem closes_broadcastPeerCount (peers : Peers) : closes (broadcastPeerCount peers).2 = [] := by
  simp [broadcastPeerCount, closes_append, closes_map_writeJSON, closes]

/-- C8: the teardown step of connection `id` leaves the registry without the
key `id` and with every other key as it was; it leaves the registry as it was
when `id` was absent, so a second run changes nothing more; when `id` was
present there is one entry fewer; the connection is closed once; and the
`WriteJSON` calls are one `{type: "peerCount", count: size after removal}` per
remaining entry, each addressed to a client registered under a key other than
`id`, hence none to the departing connection when no other entry holds it. -/
theorem teardown_removes_and_notifies (peers : Peers) (id : String) (conn : Conn) :
    (wsTeardown peers id conn).1.lookup id = none
      ∧ (∀ k, k ≠ id → (wsTeardown peers id conn).1.lookup k = peers.lookup k)
      ∧ (id ∉ peers → (wsTeardown peers id conn).1 = peers)
      ∧ (wsTeardown (wsTeardown peers id conn).1 id conn).1 = (wsTeardown peers id conn).1
      ∧ (id ∈ peers → len (wsTeardown peers id conn).1 + 1 = len peers)
      ∧ closes (wsTeardown peers id conn).2 = [conn]
      ∧ writes (wsTeardown peers id conn).2
          = (wsTeardown peers id conn).1.entries.map
              (fun e => (e.2.conn, peerCountMsg (len (wsTeardown peers id conn).1)))
      ∧ (∀ c v, (c, v) ∈ writes (wsTeardown peers id conn).2 →
          ∃ k cl, k ≠ id ∧ peers.lookup k = some cl ∧ cl.conn = c)
      ∧ (∀ k cl, k ≠ id → peers.lookup k = some cl →
          (cl.conn, peerCountMsg (len (wsTeardown peers id conn).1))
            ∈ writes (wsTeardown peers id conn).2)
      ∧ ((∀ k cl, k ≠ id → peers.lookup k = some cl → cl.conn ≠ conn) →
          ∀ v, (conn, v) ∉ writes (wsTeardown peers id conn).2) := by
  have hrec : ∀ c v, (c, v) ∈ writes (wsTeardown peers id conn).2 →
      ∃ k cl, k ≠ id ∧ peers.lookup k = some cl ∧ cl.conn = c := by
    intro c v hv
    rw [writes_wsTeardown] at hv
    obtain ⟨e, he, heq⟩ := List.mem_map.1 hv
    injection heq with h1 h2
    have hl := (entry_iff_lookup _ e).1 he
    have hk : e.1 ≠ id := by
      intro hk
      rw [hk, AList.lookup_erase] at hl
      cases hl
    rw [AList.lookup_erase_ne hk] at hl
    exact ⟨e.1, e.2, hk, hl, h1⟩
  refine ⟨AList.lookup_erase id peers, fun k hk => AList.lookup_erase_ne hk,
    fun h => erase_of_not_mem peers id h, ?_, fun h => len_erase_of_mem peers id h, ?_,
    writes_wsTeardown peers id conn, hrec, ?_, ?_⟩
  · exact erase_of_not_mem (peers.erase id) id (fun h => ((AList.mem_erase).1 h).1 rfl)
  · rw [wsTeardown_eq]
    simp only [closes_append, closes_broadcastPeerCount]
    rfl
  · intro k cl hk hl
    rw [writes_wsTeardown]
    refine List.mem_map.2 ⟨⟨k, cl⟩, (entry_iff_lookup _ ⟨k, cl⟩).2 ?_, rfl⟩
    show AList.lookup k (AList.erase id peers) = some cl
    rw [AList.lookup_erase_ne hk]
    exact hl
  · intro hsep v hv
    obtain ⟨k, cl, hk, hl, hc⟩ := hrec conn v hv
    exact hsep k cl hk hl hc

theorem teardown_removes_and_notifies_witness :
    writes (wsTeardown aliceAndBob "bob" 7).2 = [(3, peerCountMsg 1)]
      ∧ ∀ v, (7, v) ∉ writes (wsTeardown aliceAndBob "bob" 7).2 :=
  ⟨(teardown_removes_and_notifies aliceAndBob "bob" 7).2.2.2.2.2.2.1,
    (teardown_removes_and_notifies aliceAndBob "bob" 7).2.2.2.2.2.2.2.2.2 (by
      intro k cl hk hl
      by_cases ha : k = "alice"
      · subst ha
        have h3 : aliceAndBob.lookup "alice" = some ⟨"alice", 3⟩ := rfl
        rw [h3] at hl
        injection hl with hl
        subst hl
        decide
      · rw [aliceAndBob, AList.lookup_insert_ne ha, onlyBob, AList.lookup_insert_ne hk] at hl
        cases hl)⟩

/-! ## Identifiers -/

theorem hexdigit_injective : ∀ i j : Fin 16, hexdigit i.val = hexdigit j.val → i = j := by
  decide

theorem hex_pair_injective (a b : Byte) (h1 : hexdigit (a.val / 16) = hexdigit (b.val / 16))
    (h2 : hexdigit (a.val % 16) = hexdigit (b.val % 16)) : a = b := by
  have ha := a.isLt
  have hb := b.isLt
  have e1 := hexdigit_injective ⟨a.val / 16, by omega⟩ ⟨b.val / 16, by omega⟩ h1
  have e2 := hexdigit_injective ⟨a.val % 16, by omega⟩ ⟨b.val % 16, by omega⟩ h2
  have e1v : a.val / 16 = b.val / 16 := congrArg Fin.val e1
  have e2v : a.val % 16 = b.val % 16 := congrArg Fin.val e2
  apply Fin.ext
  omega

theorem hex_chars_injective (xs ys : List Byte)
    (h : (xs.flatMap fun v => [hexdigit (v.val / 16), hexdigit (v.val % 16)])
      = ys.flatMap fun v => [hexdigit (v.val / 16), hexdigit (v.val % 16)]) : xs = ys := by
  induction xs generalizing ys with
  | nil =>
    cases ys with
    | nil => rfl
    | cons y ys => simp at h
  | cons x xs ih =>
    cases ys with
    | nil => simp at h
    | cons y ys =>
      simp only [List.flatMap_cons, List.cons_append, List.nil_append, List.cons.injEq] at h
      obtain ⟨h1, h2, h3⟩ := h
      rw [hex_pair_injective x y h1 h2, ih ys h3]

/-- Distinct byte strings have distinct hexadecimal renderings. -/
theorem encodeToString_injective : Function.Injective encodeToString := by
  intro xs ys h
  apply hex_chars_injective
  exact congrArg String.data h

/-! ## Sequences of registrations -/

theorem connectAll_arrivals (peers : Peers) (l : List (Conn × Buf16)) :
    (connectAll peers (l.map arrival)).2 = l.map (fun a => encodeToString a.2.val)
      ∧ ∀ k, k ∈ (connectAll peers (l.map arrival)).1
          ↔ k ∈ peers ∨ k ∈ l.map (fun a => encodeToString a.2.val) := by
  induction l generalizing peers with
  | nil => simp [connectAll]
  | cons a rest ih =>
    obtain ⟨conn, b⟩ := a
    have hc := writes_wsConnect peers conn (Except.ok b) none (encodeToString b.val) rfl
    simp only [List.map_cons, arrival, connectAll, hc]
    obtain ⟨h1, h2⟩ := ih (peers.insert (encodeToString b.val) ⟨encodeToString b.val, conn⟩)
    refine ⟨by rw [← h1], fun k => ?_⟩
    have h3 := h2 k
    simp only [arrival] at h3
    rw [h3, AList.mem_insert, List.mem_cons]
    tauto

theorem len_eq_dedup (peers : Peers) (ids : List String) (h : ∀ k, k ∈ peers ↔ k ∈ ids) :
    len peers = ids.dedup.length := by
  rw [len_eq_keys]
  apply List.Perm.length_eq
  apply (List.perm_ext_iff_of_nodup peers.keys_nodup (List.nodup_dedup ids)).2
  intro k
  rw [List.mem_dedup, ← h k, AList.mem_keys]

theorem dedup_length_eq_iff (ids : List String) : ids.dedup.length = ids.length ↔ ids.Nodup := by
  constructor
  · intro h
    rw [← (List.dedup_sublist ids).eq_of_length h]
    exact List.nodup_dedup ids
  · intro h
    rw [List.dedup_eq_self.2 h]

/-- C6, as amended: `N` registrations on the empty registry issue `N`
identifiers, the hexadecimal renderings of the `N` random draws; the registry
then holds exactly one entry per distinct identifier issued, so at most `N`
entries, and exactly `N` if and only if the identifiers are pairwise distinct,
which is the case if and only if the random draws are pairwise distinct. -/
theorem registry_size_counts_distinct_ids (l : List (Conn × Buf16)) :
    (connectAll ∅ (l.map arrival)).2.length = l.length
      ∧ (connectAll ∅ (l.map arrival)).2 = l.map (fun a => encodeToString a.2.val)
      ∧ (∀ k, k ∈ (connectAll ∅ (l.map arrival)).1 ↔ k ∈ (connectAll ∅ (l.map arrival)).2)
      ∧ len (connectAll ∅ (l.map arrival)).1 = (connectAll ∅ (l.map arrival)).2.dedup.length
      ∧ len (connectAll ∅ (l.map arrival)).1 ≤ l.length
      ∧ (len (connectAll ∅ (l.map arrival)).1 = l.length
          ↔ (connectAll ∅ (l.map arrival)).2.Nodup)
      ∧ ((connectAll ∅ (l.map arrival)).2.Nodup ↔ (l.map fun a => a.2).Nodup) := by
  obtain ⟨h1, h2⟩ := connectAll_arrivals ∅ l
  have hlen : (connectAll ∅ (l.map arrival)).2.length = l.length := by
    rw [h1, List.length_map]
  have hmem : ∀ k, k ∈ (connectAll ∅ (l.map arrival)).1 ↔ k ∈ (connectAll ∅ (l.map arrival)).2 := by
    intro k
    rw [h2 k, h1]
    simp [AList.not_mem_empty]
  have hd := len_eq_dedup _ _ hmem
  refine ⟨hlen, h1, hmem, hd, ?_, ?_, ?_⟩
  · rw [hd, ← hlen]
    exact (List.dedup_sublist _).length_le
  · rw [hd, ← hlen]
    exact dedup_length_eq_iff _
  · rw [h1]
    have hinj : Function.Injective (fun b : Buf16 => encodeToString b.val) :=
      fun x y h => Subtype.ext (encodeToString_injective h)
    have hm : l.map (fun a => encodeToString a.2.val)
        = (l.map fun a => a.2).map (fun b : Buf16 => encodeToString b.val) := by
      rw [List.map_map]
      rfl
    rw [hm]
    exact List.nodup_map_iff hinj

/-- C6, counterexample: two registrations whose random draws coincide issue the
same identifier twice and leave one entry in the registry, not two. -/
theorem equal_draws_collide :
    ¬ (len (connectAll ∅ ([(1, zeroBuf), (2, zeroBuf)].map arrival)).1 = 2
        ∧ (connectAll ∅ ([(1, zeroBuf), (2, zeroBuf)].map arrival)).2.Nodup) := by
  decide

/-! ## Sends and the registry lock -/

theorem sendsWhileLocked_logIfErr (held : Bool) (what : String) (err : Option String) :
    sendsWhileLocked held (logIfErr what err) = false := by
  cases err <;> rfl

theorem sendsWhileLocked_broadcast_body (l : List (Sigma fun _ : String => Client))
    (msg : Message) :
    sendsWhileLocked true ((l.map fun e => Event.writeJSON e.2.conn msg) ++ [Event.unlock])
      = !l.isEmpty := by
  cases l with
  | nil => rfl
  | cons e es => simp [sendsWhileLocked]

theorem sendsWhileLocked_wsIteration (unmarshal : List Byte → Except String Message)
    (peers : Peers) (id : String) (rd : Except String (List Byte)) (fwdErr : Option String) :
    sendsWhileLocked false (wsIteration unmarshal peers id rd fwdErr).trace = false := by
  cases rd with
  | error e => rfl
  | ok data =>
    simp only [wsIteration]
    cases hu : unmarshal data with
    | error e => rfl
    | ok msg =>
      simp only []
      split
      · rfl
      · split
        · split
          · rfl
          · cases hl : (peers.lookup (asString (Message.index msg "to"))) with
            | none => simp [lookup, hl, sendsWhileLocked]
            | some target =>
              cases msg with
              | none => simp [lookup, hl, Message.assign, sendsWhileLocked]
              | some m =>
                simp [lookup, hl, Message.assign, sendsWhileLocked, sendsWhileLocked_logIfErr]
        · rfl

/-- C9, as amended: registration, lookup and removal take and release the
mutex with no `WriteJSON` in between, and the forwarding `WriteJSON` of the
loop body comes after the release; `broadcastPeerCount` takes the mutex first,
releases it last, and issues every one of its `WriteJSON` calls, one per
registered client, in between, so it sends while holding the mutex whenever
the registry is not empty. -/
theorem only_broadcast_sends_while_locked (peers : Peers) (client : Client) (id toId : String) :
    sendsWhileLocked false (register peers client).2 = false
      ∧ sendsWhileLocked false (lookup peers toId).2 = false
      ∧ sendsWhileLocked false (unregister peers id).2 = false
      ∧ (∀ (unmarshal : List Byte → Except String Message) (rd : Except String (List Byte))
            (fwdErr : Option String),
          sendsWhileLocked false (wsIteration unmarshal peers id rd fwdErr).trace = false)
      ∧ (broadcastPeerCount peers).2
          = Event.lock
            :: (peers.entries.map fun e => Event.writeJSON e.2.conn (peerCountMsg (len peers)))
            ++ [Event.unlock]
      ∧ (sendsWhileLocked false (broadcastPeerCount peers).2 = true ↔ len peers ≠ 0) := by
  refine ⟨rfl, rfl, rfl, fun unmarshal rd fwdErr =>
    sendsWhileLocked_wsIteration unmarshal peers id rd fwdErr, rfl, ?_⟩
  have h : sendsWhileLocked false (broadcastPeerCount peers).2 = !peers.entries.isEmpty := by
    simp only [broadcastPeerCount, List.singleton_append, List.cons_append, sendsWhileLocked]
    exact sendsWhileLocked_broadcast_body _ _
  rw [h, len]
  cases peers.entries <;> simp

/-- C9, counterexample: with one registered client, `broadcastPeerCount` issues
a `WriteJSON` between taking the mutex and releasing it. -/
theorem broadcast_sends_while_locked :
    (broadcastPeerCount onlyBob).2
        = [Event.lock, Event.writeJSON 7 (peerCountMsg 1), Event.unlock]
      ∧ sendsWhileLocked false (broadcastPeerCount onlyBob).2 = true := by
  exact ⟨rfl, rfl⟩

end GoVoip
